import Mathlib

/-!
Verification of the gallifrey Discrete Interval Encoding Tree (tree.go).

The tree stores a set of integers as closed intervals.  `Tree.leaf` stands for
an absent node pointer.  Per the spec (design notes, section 9), the per-node
`min`/`max` bounds used by the query engine are the node interval's
`Start()`/`End()` values.
-/

namespace Gallifrey

/-- Modelled from the spec: the Interval value type (file interval.go, which is
not part of src/) is an immutable closed integer range with inclusive bounds,
with the capability contract of spec section 6. -/
structure Interval where
  start : Int
  end_ : Int
deriving DecidableEq, Repr

namespace Interval

/-- Modelled from the spec: Contains(other) is true if other's range is fully
inside this range. -/
def Contains (i other : Interval) : Bool :=
  i.start ≤ other.start && other.end_ ≤ i.end_

/-- Modelled from the spec: the two ranges overlap (shared by the StartsBefore
and EndsAfter tests). -/
def Overlaps (i other : Interval) : Bool :=
  i.start ≤ other.end_ && other.start ≤ i.end_

/-- Modelled from the spec: LessThan(other) is true when the ranges are
disjoint and strictly ordered with no overlap, this one below other. -/
def LessThan (i other : Interval) : Bool :=
  i.end_ < other.start

/-- Modelled from the spec: GreaterThan(other) is true when the ranges are
disjoint and strictly ordered with no overlap, this one above other. -/
def GreaterThan (i other : Interval) : Bool :=
  other.end_ < i.start

/-- Modelled from the spec: StartsBefore(other) is true when this range's start
precedes other's start and the two overlap. -/
def StartsBefore (i other : Interval) : Bool :=
  i.start < other.start && i.Overlaps other

/-- Modelled from the spec: EndsAfter(other) is true when this range's end
follows other's end and the two overlap. -/
def EndsAfter (i other : Interval) : Bool :=
  other.end_ < i.end_ && i.Overlaps other

/-- Modelled from the spec: Adjacent(other, gap) is true when the numeric
distance between the closer endpoints equals exactly gap. -/
def Adjacent (i other : Interval) (gap : Int) : Bool :=
  i.start - other.end_ == gap || other.start - i.end_ == gap

/-- Modelled from the spec: Extend(other) returns the smallest interval
covering both inputs' union span. -/
def Extend (i other : Interval) : Interval :=
  ⟨min i.start other.start, max i.end_ other.end_⟩

end Interval

/-- Modelled from the spec: free constructor producing an Interval from
(start, end). -/
def NewInterval (s e : Int) : Interval := ⟨s, e⟩

/-- A binary tree of intervals; `leaf` is the absent (`nil`) node pointer,
`node` is tree.go's `node` struct with its interval and two children. -/
inductive Tree where
  | leaf : Tree
  | node (i : Interval) (left : Tree) (right : Tree) : Tree
deriving DecidableEq, Repr

/-- tree.go `splitMax`: splits off the maximum interval of the tree
`node interval left right`, returning it with the remainder. -/
def splitMax (interval : Interval) (left right : Tree) : Interval × Tree :=
  match right with
  | .leaf => (interval, left)
  | .node ri rl rr =>
    let p := splitMax ri rl rr
    (p.1, .node interval left p.2)

/-- tree.go `splitMin`: splits off the minimum interval of the tree
`node interval left right`, returning it with the remainder. -/
def splitMin (interval : Interval) (left right : Tree) : Interval × Tree :=
  match left with
  | .leaf => (interval, right)
  | .node li ll lr =>
    let p := splitMin li ll lr
    (p.1, .node interval p.2 right)

/-- tree.go `joinLeft`: joins `interval` above `left`/`right`, absorbing the
maximum of `left` when it is adjacent with gap 1. -/
def joinLeft (interval : Interval) (left right : Tree) : Tree :=
  match left with
  | .leaf => .node interval left right
  | .node li ll lr =>
    let p := splitMax li ll lr
    if p.1.Adjacent interval 1 then .node (p.1.Extend interval) p.2 right
    else .node interval (.node li ll lr) right

/-- tree.go `joinRight`: joins `interval` above `left`/`right`, absorbing the
minimum of `right` when it is adjacent with gap 1. -/
def joinRight (interval : Interval) (left right : Tree) : Tree :=
  match right with
  | .leaf => .node interval left right
  | .node ri rl rr =>
    let p := splitMin ri rl rr
    if p.1.Adjacent interval 1 then .node (interval.Extend p.1) left p.2
    else .node interval left (.node ri rl rr)

/-- tree.go `insert`: recursive insertion of an interval; the Go switch's cases
are tried in source order. -/
def insert (interval : Interval) (d : Tree) : Tree :=
  match d with
  | .leaf => .node interval .leaf .leaf
  | .node di dl dr =>
    if di.Contains interval then .node di dl dr
    else if interval.LessThan di then
      if interval.Adjacent di 1 then joinLeft (NewInterval interval.start di.end_) dl dr
      else .node di (insert interval dl) dr
    else if interval.GreaterThan di then
      if interval.Adjacent di 1 then joinRight (di.Extend interval) dl dr
      else .node di dl (insert interval dr)
    else if interval.Contains di then
      match joinLeft (interval.Extend di) dl dr with
      | .leaf => .leaf  -- unreachable: joinLeft always returns a node
      | .node li ll lr => joinRight (NewInterval li.start interval.end_) ll lr
    else if interval.StartsBefore di then
      joinLeft (NewInterval interval.start di.end_) dl dr
    else if interval.EndsAfter di then
      joinRight (NewInterval di.start interval.end_) dl dr
    else .node di dl dr

/-- tree.go `intersection`: the overlap count between `[l, r]` and the tree,
with each node's `min`/`max` read as its interval's bounds (spec section 9). -/
def intersection (l r : Int) (d : Tree) : Int :=
  match d with
  | .leaf => 0
  | .node i dl dr =>
    if l > i.end_ then
      if dr = .leaf then 0 else intersection l r dr
    else if r < i.start then
      if dl = .leaf then 0 else intersection l r dl
    else if l ≥ i.start then
      if r ≤ i.end_ then r - l + 1
      else (i.end_ - l + 1) + (if dr = .leaf then 0 else intersection (i.end_ + 1) r dr)
    else if r ≤ i.end_ then
      (r - i.start + 1) + (if dl = .leaf then 0 else intersection l (i.start - 1) dl)
    else if l ≤ i.start ∧ r ≥ i.end_ then
      (i.end_ - i.start + 1)
        + (if dl = .leaf then 0 else intersection l (i.start - 1) dl)
        + (if dr = .leaf then 0 else intersection (i.end_ + 1) r dr)
    else 0

/-- tree.go `compress`: `count` left rotations down the right spine; `none`
models the nil-pointer dereference that occurs when fewer than two chain nodes
remain for a rotation. -/
def compress (root : Tree) (count : Nat) : Option Tree :=
  match count, root with
  | 0, t => some t
  | c + 1, .node ci cl (.node si sl sr) =>
    (compress sr c).map fun t => .node si (.node ci cl sl) t
  | _ + 1, _ => none

/-- Number of nodes of a tree. -/
def size : Tree → Nat
  | .leaf => 0
  | .node _ l r => 1 + size l + size r

/-- Total weight of left subtrees, a termination measure for the tree-to-vine
pass (each right rotation strictly decreases it). -/
def lw : Tree → Nat
  | .leaf => 0
  | .node _ l r => size l + lw l + lw r

/-- The tree-to-vine loop of tree.go `balance`, acting on the chain hanging to
the right of the root: right rotations flatten the chain, and the returned
count is the number of vine nodes (the Go `size` variable). -/
def toVine (t : Tree) : Tree × Nat :=
  match t with
  | .leaf => (.leaf, 0)
  | .node i .leaf r =>
    let p := toVine r
    (.node i .leaf p.1, p.2 + 1)
  | .node i (.node li ll lr) r => toVine (.node li ll (.node i lr r))
termination_by 2 * lw t + size t
decreasing_by
  · simp [lw, size]
  · simp [lw, size]; omega

/-- The series-of-compressions loop of tree.go `balance`. -/
def balanceLoop (root : Tree) (sz : Nat) : Option Tree :=
  if 1 < sz then
    match compress root (sz / 2) with
    | none => none
    | some r => balanceLoop r (sz / 2)
  else some root
termination_by sz
decreasing_by omega

/-- The register of tree.go `nearestPow2`, carried as an exponent: the Go `r`
variable always holds `2 ^ k`. -/
def nearestPow2Aux (i : Nat) (k : Nat) : Nat :=
  if 2 ^ k ≤ i then nearestPow2Aux i (k + 1) else 2 ^ k / 2
termination_by i + 1 - 2 ^ k
decreasing_by
  have h1 : 0 < 2 ^ k := pow_pos (by omega) k
  simp only [pow_succ]
  omega

/-- tree.go `nearestPow2`: calculates 2^(floor(log2(i))). -/
def nearestPow2 (i : Nat) : Nat := nearestPow2Aux i 0

/-- tree.go `balance` (DSW): tree-to-vine on the right chain, then compression
rotations; `none` models a nil-pointer dereference. -/
def balance (root : Tree) : Option Tree :=
  match root with
  | .leaf => none
  | .node i l r =>
    let p := toVine r
    let leaves := p.2 + 1 - nearestPow2 (p.2 + 1)
    match compress (.node i l p.1) leaves with
    | none => none
    | some t => balanceLoop t (p.2 - leaves)

/-- tree.go `intersectionAll`: sums, over every node of `d`, the intersection
of that node's interval against the other tree. -/
def intersectionAll (d : Tree) (other : Tree) : Int :=
  match d with
  | .leaf => 0
  | .node i l r =>
    intersection i.start i.end_ other + intersectionAll l other + intersectionAll r other

/-- tree.go `total`: the number of integers represented by the tree. -/
def total (d : Tree) : Int :=
  match d with
  | .leaf => 0
  | .node i l r => i.end_ - i.start + 1 + total l + total r

/-- Facade `Insert`: each interval of the argument list is applied in turn to
the evolving root. -/
def Insert (intervals : List Interval) (t : Tree) : Tree :=
  intervals.foldl (fun acc i => insert i acc) t

/-- Facade `Intersection`. -/
def Intersection (i : Interval) (t : Tree) : Int :=
  intersection i.start i.end_ t

/-- Facade `IntersectionAll`. -/
def IntersectionAll (d other : Tree) : Int := intersectionAll d other

/-- Facade `Total`. -/
def Total (t : Tree) : Int := total t

/-- Facade `Contains`: whether all of the range specified is contained within
this diet. -/
def Contains (i : Interval) (t : Tree) : Bool :=
  intersection i.start i.end_ t == i.end_ - i.start + 1

/-- Facade `Balance`: guarded no-op on an empty tree. -/
def Balance (t : Tree) : Option Tree :=
  match t with
  | .leaf => some .leaf
  | .node i l r => balance (.node i l r)

/-- In-order traversal of the stored intervals. -/
def inorder : Tree → List Interval
  | .leaf => []
  | .node i l r => inorder l ++ i :: inorder r

/-- Height of the tree (number of nodes on a longest root-to-leaf path). -/
def height : Tree → Nat
  | .leaf => 0
  | .node _ l r => 1 + max (height l) (height r)

/-- Length of the right spine. -/
def spineLen : Tree → Nat
  | .leaf => 0
  | .node _ _ r => 1 + spineLen r

/-- A well-formed interval: inclusive bounds with start ≤ end. -/
def valid (i : Interval) : Prop := i.start ≤ i.end_

/-- `a` lies strictly below `b`, not even adjacent with gap 1: at least one
integer is missing between them. -/
def before (a b : Interval) : Prop := a.end_ + 1 < b.start

/-- The maximal-disjoint invariant: in-order intervals are valid and pairwise
strictly increasing, disjoint and non-adjacent-with-gap-1. -/
def Inv (t : Tree) : Prop :=
  (∀ iv ∈ inorder t, valid iv) ∧ (inorder t).Pairwise before

/-- The set of integers represented by the tree. -/
def elems : Tree → Finset ℤ
  | .leaf => ∅
  | .node i l r => elems l ∪ Finset.Icc i.start i.end_ ∪ elems r

instance : DecidableRel before :=
  fun a b => inferInstanceAs (Decidable (a.end_ + 1 < b.start))

instance : DecidablePred valid :=
  fun i => inferInstanceAs (Decidable (i.start ≤ i.end_))

instance (t : Tree) : Decidable (Inv t) :=
  decidable_of_iff ((∀ iv ∈ inorder t, valid iv) ∧ (inorder t).Pairwise before) Iff.rfl

/-- Decreasing, pairwise non-adjacent single-integer intervals
[2n,2n], [2n-2,2n-2], ..., [2,2]. -/
def descSingles : Nat → List Interval
  | 0 => []
  | n + 1 => ⟨2 * (n + 1), 2 * (n + 1)⟩ :: descSingles n

/-- The left-leaning chain those inserts produce. -/
def leftChain : Nat → Tree
  | 0 => .leaf
  | n + 1 => .node ⟨2 * (n + 1), 2 * (n + 1)⟩ (leftChain n) .leaf

/-- The spec's running example set {[1,5],[10,15]}. -/
def exTree : Tree := Insert [⟨1, 5⟩, ⟨10, 15⟩] .leaf

/-- A second example tree, {[4,11]}. -/
def exOther : Tree := Insert [⟨4, 11⟩] .leaf

/-! ## Basic lemmas about the interval contract -/

@[simp] theorem Interval.Contains_eq {i o : Interval} :
    i.Contains o = true ↔ i.start ≤ o.start ∧ o.end_ ≤ i.end_ := by
  simp [Interval.Contains]

@[simp] theorem Interval.LessThan_eq {i o : Interval} :
    i.LessThan o = true ↔ i.end_ < o.start := by
  simp [Interval.LessThan]

@[simp] theorem Interval.GreaterThan_eq {i o : Interval} :
    i.GreaterThan o = true ↔ o.end_ < i.start := by
  simp [Interval.GreaterThan]

@[simp] theorem Interval.Adjacent_eq {i o : Interval} {g : Int} :
    i.Adjacent o g = true ↔ i.start - o.end_ = g ∨ o.start - i.end_ = g := by
  simp [Interval.Adjacent]

/-! ## The invariant, in-order traversals and represented sets -/

theorem inorder_node {i : Interval} {l r : Tree} :
    inorder (.node i l r) = inorder l ++ i :: inorder r := rfl

theorem Inv_node {i : Interval} {l r : Tree} (h : Inv (.node i l r)) :
    Inv l ∧ Inv r ∧ valid i ∧ (∀ a ∈ inorder l, before a i) ∧
      (∀ b ∈ inorder r, before i b) := by
  obtain ⟨hv, hp⟩ := h
  rw [inorder_node] at hv hp
  rw [List.pairwise_append] at hp
  obtain ⟨hpl, hpir, hcross⟩ := hp
  rw [List.pairwise_cons] at hpir
  refine ⟨⟨fun iv hiv => hv iv (by simp [hiv]), hpl⟩,
          ⟨fun iv hiv => hv iv (by simp [hiv]), hpir.2⟩,
          hv i (by simp), fun a ha => hcross a ha i (by simp),
          hpir.1⟩

theorem mem_elems {t : Tree} {n : ℤ} :
    n ∈ elems t ↔ ∃ iv ∈ inorder t, iv.start ≤ n ∧ n ≤ iv.end_ := by
  induction t with
  | leaf => simp [elems, inorder]
  | node i l r ihl ihr =>
    simp only [elems, inorder, Finset.mem_union, Finset.mem_Icc, ihl, ihr]
    constructor
    · rintro ((⟨iv, hiv, h1, h2⟩ | hn) | ⟨iv, hiv, h1, h2⟩)
      · exact ⟨iv, by simp [hiv], h1, h2⟩
      · exact ⟨i, by simp, hn.1, hn.2⟩
      · exact ⟨iv, by simp [hiv], h1, h2⟩
    · rintro ⟨iv, hiv, h1, h2⟩
      rw [List.mem_append, List.mem_cons] at hiv
      rcases hiv with hiv | hiv | hiv
      · exact Or.inl (Or.inl ⟨iv, hiv, h1, h2⟩)
      · exact Or.inl (Or.inr (by rw [hiv] at h1 h2; exact ⟨h1, h2⟩))
      · exact Or.inr ⟨iv, hiv, h1, h2⟩

theorem elems_ub {t : Tree} {j : Interval} (h : ∀ a ∈ inorder t, before a j) :
    ∀ x ∈ elems t, x + 1 < j.start := by
  intro x hx
  rw [mem_elems] at hx
  obtain ⟨iv, hiv, _, h2⟩ := hx
  have := h iv hiv
  unfold before at this
  omega

theorem elems_lb {t : Tree} {j : Interval} (h : ∀ b ∈ inorder t, before j b) :
    ∀ x ∈ elems t, j.end_ + 1 < x := by
  intro x hx
  rw [mem_elems] at hx
  obtain ⟨iv, hiv, h1, _⟩ := hx
  have := h iv hiv
  unfold before at this
  omega

theorem foldr_union (L : List Interval) (s : Finset ℤ) :
    (L.foldr (fun iv t => Finset.Icc iv.start iv.end_ ∪ t) ∅) ∪ s
      = L.foldr (fun iv t => Finset.Icc iv.start iv.end_ ∪ t) s := by
  induction L with
  | nil => simp
  | cons a L ih => simp [Finset.union_assoc, ih]

theorem elems_eq_foldr (t : Tree) :
    elems t = (inorder t).foldr (fun iv s => Finset.Icc iv.start iv.end_ ∪ s) ∅ := by
  induction t with
  | leaf => rfl
  | node i l r ihl ihr =>
    simp only [elems, inorder, List.foldr_append, List.foldr_cons, ihl, ihr]
    rw [Finset.union_assoc, foldr_union]

theorem elems_congr {t₁ t₂ : Tree} (h : inorder t₁ = inorder t₂) :
    elems t₁ = elems t₂ := by
  rw [elems_eq_foldr, elems_eq_foldr, h]

theorem Inv_congr {t₁ t₂ : Tree} (h : inorder t₁ = inorder t₂) : Inv t₁ ↔ Inv t₂ := by
  unfold Inv; rw [h]

theorem total_eq_sum (t : Tree) :
    total t = ((inorder t).map (fun iv => iv.end_ - iv.start + 1)).sum := by
  induction t with
  | leaf => simp [total, inorder]
  | node i l r ihl ihr =>
    simp only [total, inorder, List.map_append, List.map_cons, List.sum_append,
      List.sum_cons, ihl, ihr]
    ring

theorem total_congr {t₁ t₂ : Tree} (h : inorder t₁ = inorder t₂) : total t₁ = total t₂ := by
  rw [total_eq_sum, total_eq_sum, h]

/-! ## Counting helpers -/

theorem card_inter_zero_lt {E : Finset ℤ} {l r : ℤ} (h : ∀ x ∈ E, x < l) :
    (Finset.Icc l r ∩ E).card = 0 := by
  rw [Finset.card_eq_zero, Finset.eq_empty_iff_forall_not_mem]
  intro x hx
  rw [Finset.mem_inter, Finset.mem_Icc] at hx
  have := h x hx.2
  omega

theorem card_inter_zero_gt {E : Finset ℤ} {l r : ℤ} (h : ∀ x ∈ E, r < x) :
    (Finset.Icc l r ∩ E).card = 0 := by
  rw [Finset.card_eq_zero, Finset.eq_empty_iff_forall_not_mem]
  intro x hx
  rw [Finset.mem_inter, Finset.mem_Icc] at hx
  have := h x hx.2
  omega

theorem inter_clip_right {E : Finset ℤ} {l r e : ℤ} (hE : ∀ x ∈ E, e < x)
    (hl : l ≤ e + 1) : Finset.Icc l r ∩ E = Finset.Icc (e + 1) r ∩ E := by
  ext x
  simp only [Finset.mem_inter, Finset.mem_Icc]
  constructor
  · rintro ⟨⟨_, h2⟩, hxE⟩
    exact ⟨⟨by have := hE x hxE; omega, h2⟩, hxE⟩
  · rintro ⟨⟨_, h2⟩, hxE⟩
    exact ⟨⟨by omega, h2⟩, hxE⟩

theorem inter_clip_left {E : Finset ℤ} {l r s : ℤ} (hE : ∀ x ∈ E, x < s)
    (hr : s - 1 ≤ r) : Finset.Icc l r ∩ E = Finset.Icc l (s - 1) ∩ E := by
  ext x
  simp only [Finset.mem_inter, Finset.mem_Icc]
  constructor
  · rintro ⟨⟨h1, _⟩, hxE⟩
    exact ⟨⟨h1, by have := hE x hxE; omega⟩, hxE⟩
  · rintro ⟨⟨h1, _⟩, hxE⟩
    exact ⟨⟨h1, by have := hE x hxE; omega⟩, hxE⟩

theorem Icc_inter_Icc (a b c d : ℤ) :
    Finset.Icc a b ∩ Finset.Icc c d = Finset.Icc (a ⊔ c) (b ⊓ d) := by
  ext x
  simp only [Finset.mem_inter, Finset.mem_Icc, sup_le_iff, le_inf_iff]
  tauto

theorem card_inter_union {Q A B : Finset ℤ} (h : Disjoint A B) :
    (Q ∩ (A ∪ B)).card = (Q ∩ A).card + (Q ∩ B).card := by
  rw [Finset.inter_union_distrib_left]
  exact Finset.card_union_of_disjoint
    (h.mono Finset.inter_subset_right Finset.inter_subset_right)

theorem card_inter_node {Q : Finset ℤ} {i : Interval} {l r : Tree}
    (h : Inv (.node i l r)) :
    (Q ∩ elems (.node i l r)).card
      = (Q ∩ elems l).card + (Q ∩ Finset.Icc i.start i.end_).card
        + (Q ∩ elems r).card := by
  obtain ⟨_, _, hvi, hbl, hbr⟩ := Inv_node h
  have hub := elems_ub hbl
  have hlb := elems_lb hbr
  have d1 : Disjoint (elems l) (Finset.Icc i.start i.end_) := by
    rw [Finset.disjoint_left]
    intro x hx hx2
    rw [Finset.mem_Icc] at hx2
    have := hub x hx
    omega
  have d2 : Disjoint (elems l ∪ Finset.Icc i.start i.end_) (elems r) := by
    rw [Finset.disjoint_left]
    intro x hx hx2
    have h2 := hlb x hx2
    rw [Finset.mem_union] at hx
    unfold valid at hvi
    rcases hx with hx | hx
    · have := hub x hx
      omega
    · rw [Finset.mem_Icc] at hx
      omega
  show (Q ∩ (elems l ∪ Finset.Icc i.start i.end_ ∪ elems r)).card = _
  rw [card_inter_union d2, card_inter_union d1]

/-! ## Correctness of the query engine on invariant-satisfying trees -/

theorem intersection_guard (a b : ℤ) (d : Tree) :
    (if d = Tree.leaf then 0 else intersection a b d) = intersection a b d := by
  cases d
  · simp [intersection]
  · simp

/-- On a tree satisfying the maximal-disjoint invariant, `intersection l r`
returns exactly the number of integers of `[l, r]` that the tree represents. -/
theorem intersection_card (t : Tree) (h : Inv t) :
    ∀ l r : ℤ, l ≤ r →
      intersection l r t = ((Finset.Icc l r ∩ elems t).card : ℤ) := by
  induction t with
  | leaf => intro l r _; simp [intersection, elems]
  | node i dl dr ihl ihr =>
    intro l r hlr
    obtain ⟨hInvL, hInvR, hvi, hbl, hbr⟩ := Inv_node h
    have hub : ∀ x ∈ elems dl, x + 1 < i.start := elems_ub hbl
    have hlb : ∀ x ∈ elems dr, i.end_ + 1 < x := elems_lb hbr
    unfold valid at hvi
    have hcard := card_inter_node (Q := Finset.Icc l r) h
    simp only [intersection, intersection_guard]
    rw [hcard]
    push_cast
    split_ifs with h1 h2 h3 h4 h5 h6
    · -- query lies entirely above the node interval
      have c1 : (Finset.Icc l r ∩ elems dl).card = 0 :=
        card_inter_zero_lt (fun x hx => by have := hub x hx; omega)
      have c2 : (Finset.Icc l r ∩ Finset.Icc i.start i.end_).card = 0 :=
        card_inter_zero_lt (fun x hx => by rw [Finset.mem_Icc] at hx; omega)
      rw [ihr hInvR l r hlr, c1, c2]
      simp
    · -- query lies entirely below the node interval
      have c2 : (Finset.Icc l r ∩ Finset.Icc i.start i.end_).card = 0 :=
        card_inter_zero_gt (fun x hx => by rw [Finset.mem_Icc] at hx; omega)
      have c3 : (Finset.Icc l r ∩ elems dr).card = 0 :=
        card_inter_zero_gt (fun x hx => by have := hlb x hx; omega)
      rw [ihl hInvL l r hlr, c2, c3]
      simp
    · -- query contained in the node interval
      have c1 : (Finset.Icc l r ∩ elems dl).card = 0 :=
        card_inter_zero_lt (fun x hx => by have := hub x hx; omega)
      have c3 : (Finset.Icc l r ∩ elems dr).card = 0 :=
        card_inter_zero_gt (fun x hx => by have := hlb x hx; omega)
      rw [c1, c3, Icc_inter_Icc, sup_eq_left.mpr h3, inf_eq_left.mpr h4,
        Int.card_Icc]
      omega
    · -- overlap on the node with remainder to the right
      have c1 : (Finset.Icc l r ∩ elems dl).card = 0 :=
        card_inter_zero_lt (fun x hx => by have := hub x hx; omega)
      have hclip : Finset.Icc l r ∩ elems dr = Finset.Icc (i.end_ + 1) r ∩ elems dr :=
        inter_clip_right (fun x hx => by have := hlb x hx; omega) (by omega)
      rw [hclip, ← ihr hInvR (i.end_ + 1) r (by omega), c1, Icc_inter_Icc,
        sup_eq_left.mpr h3, inf_eq_right.mpr (by omega : i.end_ ≤ r), Int.card_Icc]
      omega
    · -- overlap on the node with remainder to the left
      have c3 : (Finset.Icc l r ∩ elems dr).card = 0 :=
        card_inter_zero_gt (fun x hx => by have := hlb x hx; omega)
      have hclip : Finset.Icc l r ∩ elems dl = Finset.Icc l (i.start - 1) ∩ elems dl :=
        inter_clip_left (fun x hx => by have := hub x hx; omega) (by omega)
      rw [hclip, ← ihl hInvL l (i.start - 1) (by omega), c3, Icc_inter_Icc,
        sup_eq_right.mpr (by omega : l ≤ i.start), inf_eq_left.mpr h5, Int.card_Icc]
      omega
    · -- query strictly covers the node interval
      have hclipl : Finset.Icc l r ∩ elems dl = Finset.Icc l (i.start - 1) ∩ elems dl :=
        inter_clip_left (fun x hx => by have := hub x hx; omega) (by omega)
      have hclipr : Finset.Icc l r ∩ elems dr = Finset.Icc (i.end_ + 1) r ∩ elems dr :=
        inter_clip_right (fun x hx => by have := hlb x hx; omega) (by omega)
      rw [hclipl, hclipr, ← ihl hInvL l (i.start - 1) (by omega),
        ← ihr hInvR (i.end_ + 1) r (by omega), Icc_inter_Icc,
        sup_eq_right.mpr (by omega : l ≤ i.start),
        inf_eq_right.mpr (by omega : i.end_ ≤ r), Int.card_Icc]
      omega
    · -- the final catch-all of the Go switch is unreachable here
      exact absurd ⟨by omega, by omega⟩ h6

/-! ## Inserting an already-covered interval is a structural no-op -/

/-- Under the invariant, a valid interval all of whose integers are members
must sit inside a single stored interval: consecutive stored intervals have at
least one missing integer between them. -/
theorem exists_cover {t : Tree} {iv : Interval} (h : Inv t) (hval : valid iv)
    (hcov : ∀ n : ℤ, iv.start ≤ n → n ≤ iv.end_ → n ∈ elems t) :
    ∃ J ∈ inorder t, J.start ≤ iv.start ∧ iv.end_ ≤ J.end_ := by
  obtain ⟨hv, hp⟩ := h
  unfold valid at hval
  have h1 : iv.start ∈ elems t := hcov iv.start le_rfl hval
  rw [mem_elems] at h1
  obtain ⟨J, hJ, hJ1, hJ2⟩ := h1
  by_cases hend : iv.end_ ≤ J.end_
  · exact ⟨J, hJ, hJ1, hend⟩
  · exfalso
    have h2 : (J.end_ + 1) ∈ elems t := hcov _ (by omega) (by omega)
    rw [mem_elems] at h2
    obtain ⟨K, hK, hK1, hK2⟩ := h2
    have hne : J ≠ K := by
      intro he
      rw [← he] at hK2
      omega
    have hS : (inorder t).Pairwise (fun a b => before a b ∨ before b a) :=
      hp.imp Or.inl
    have hvJ := hv J hJ
    unfold valid at hvJ
    have := hS.forall (fun a b hab => hab.symm) hJ hK hne
    unfold before at this
    omega

theorem insert_covered {iv : Interval} (hval : valid iv) (t : Tree) (h : Inv t)
    (hJ : ∃ J ∈ inorder t, J.start ≤ iv.start ∧ iv.end_ ≤ J.end_) :
    insert iv t = t := by
  unfold valid at hval
  induction t with
  | leaf => simp [inorder] at hJ
  | node di dl dr ihl ihr =>
    obtain ⟨hInvL, hInvR, hvd, hbl, hbr⟩ := Inv_node h
    unfold valid at hvd
    obtain ⟨J, hJmem, hJ1, hJ2⟩ := hJ
    rw [inorder_node, List.mem_append, List.mem_cons] at hJmem
    rcases hJmem with hJl | hJeq | hJr
    · -- the covering interval lies in the left subtree
      have hJd := hbl J hJl
      unfold before at hJd
      have hvJ := hInvL.1 J hJl
      unfold valid at hvJ
      have c1 : ¬ (di.Contains iv = true) := by
        rw [Interval.Contains_eq]; omega
      have c2 : iv.LessThan di = true := by
        rw [Interval.LessThan_eq]; omega
      have c3 : ¬ (iv.Adjacent di 1 = true) := by
        rw [Interval.Adjacent_eq]; omega
      simp only [insert, if_neg c1, if_pos c2, if_neg c3]
      rw [ihl hInvL ⟨J, hJl, hJ1, hJ2⟩]
    · -- the node interval itself covers the insertion
      have c1 : di.Contains iv = true := by
        rw [Interval.Contains_eq, ← hJeq]
        exact ⟨hJ1, hJ2⟩
      simp only [insert, if_pos c1]
    · -- the covering interval lies in the right subtree
      have hJd := hbr J hJr
      unfold before at hJd
      have hvJ := hInvR.1 J hJr
      unfold valid at hvJ
      have c1 : ¬ (di.Contains iv = true) := by
        rw [Interval.Contains_eq]; omega
      have c2 : ¬ (iv.LessThan di = true) := by
        rw [Interval.LessThan_eq]; omega
      have c3 : iv.GreaterThan di = true := by
        rw [Interval.GreaterThan_eq]; omega
      have c4 : ¬ (iv.Adjacent di 1 = true) := by
        rw [Interval.Adjacent_eq]; omega
      simp only [insert, if_neg c1, if_neg c2, if_pos c3, if_neg c4]
      rw [ihr hInvR ⟨J, hJr, hJ1, hJ2⟩]

/-! ## The DSW balancer: every rotation finds its chain nodes, and the
in-order contents are preserved -/

theorem compress_spec : ∀ (c : Nat) (t : Tree), 2 * c ≤ spineLen t →
    ∃ t', compress t c = some t' ∧ inorder t' = inorder t ∧
      spineLen t' = spineLen t - c := by
  intro c
  induction c with
  | zero => intro t _; exact ⟨t, by simp [compress], rfl, by omega⟩
  | succ c ih =>
    intro t hsp
    cases t with
    | leaf => simp [spineLen] at hsp
    | node a al t2 =>
      cases t2 with
      | leaf => simp [spineLen] at hsp; omega
      | node b bl br =>
        have hsp2 : spineLen (Tree.node a al (.node b bl br)) = 2 + spineLen br := by
          simp [spineLen]; omega
        obtain ⟨t', h1, h2, h3⟩ := ih br (by omega)
        refine ⟨.node b (.node a al bl) t', ?_, ?_, ?_⟩
        · simp [compress, h1]
        · simp [inorder, h2, List.append_assoc]
        · simp [spineLen, h3]; omega

theorem toVine_spec (t : Tree) :
    inorder (toVine t).1 = inorder t ∧ (toVine t).2 = (inorder t).length ∧
      spineLen (toVine t).1 = (toVine t).2 := by
  induction t using toVine.induct with
  | case1 => simp [toVine, inorder, spineLen]
  | case2 i r ih =>
    obtain ⟨ih1, ih2, ih3⟩ := ih
    simp [toVine, inorder, spineLen, ih1, ih2, ih3]
    omega
  | case3 i li ll lr r ih =>
    obtain ⟨ih1, ih2, ih3⟩ := ih
    rw [toVine]
    refine ⟨?_, ?_, ih3⟩
    · rw [ih1]; simp [inorder, List.append_assoc]
    · rw [ih2]; simp [inorder]

theorem balanceLoop_spec : ∀ (sz : Nat) (t : Tree), sz ≤ spineLen t →
    ∃ t', balanceLoop t sz = some t' ∧ inorder t' = inorder t := by
  intro sz
  induction sz using Nat.strong_induction_on with
  | _ sz ih =>
    intro t hsz
    by_cases h : 1 < sz
    · obtain ⟨t1, hc1, hc2, hc3⟩ := compress_spec (sz / 2) t (by omega)
      obtain ⟨t', hb1, hb2⟩ := ih (sz / 2) (by omega) t1 (by omega)
      refine ⟨t', ?_, hb2.trans hc2⟩
      rw [balanceLoop, if_pos h, hc1]
      exact hb1
    · exact ⟨t, by rw [balanceLoop, if_neg h], rfl⟩

theorem nearestPow2Aux_lt (i k : Nat) :
    2 ^ k ≤ i ∨ 1 ≤ k → i < 2 * nearestPow2Aux i k := by
  refine nearestPow2Aux.induct i
    (fun j => 2 ^ j ≤ i ∨ 1 ≤ j → i < 2 * nearestPow2Aux i j) ?_ ?_ k
  · intro x hle ih _
    rw [nearestPow2Aux, if_pos hle]
    exact ih (Or.inr (by omega))
  · intro x hgt h
    rw [nearestPow2Aux, if_neg hgt]
    rcases h with h | h
    · omega
    · have h2 : 2 ^ x = 2 * 2 ^ (x - 1) := by
        cases x with
        | zero => omega
        | succ m => simp [pow_succ, Nat.succ_sub_one, Nat.mul_comm]
      omega

theorem nearestPow2_lt (n : Nat) (h : 1 ≤ n) : n < 2 * nearestPow2 n :=
  nearestPow2Aux_lt n 0 (Or.inl (by simpa))

theorem balance_spec (i : Interval) (l r : Tree) :
    ∃ t', balance (.node i l r) = some t' ∧ inorder t' = inorder (.node i l r) := by
  obtain ⟨hv1, hv2, hv3⟩ := toVine_spec r
  have hnp : (toVine r).2 + 1 ≤ 2 * nearestPow2 ((toVine r).2 + 1) :=
    le_of_lt (nearestPow2_lt _ (by omega))
  have hsp : spineLen (Tree.node i l (toVine r).1) = (toVine r).2 + 1 := by
    simp [spineLen, hv3]
    omega
  obtain ⟨t1, hc1, hc2, hc3⟩ := compress_spec
    ((toVine r).2 + 1 - nearestPow2 ((toVine r).2 + 1))
    (.node i l (toVine r).1) (by omega)
  obtain ⟨t', hb1, hb2⟩ := balanceLoop_spec
    ((toVine r).2 - ((toVine r).2 + 1 - nearestPow2 ((toVine r).2 + 1))) t1 (by omega)
  refine ⟨t', ?_, ?_⟩
  · simp only [balance]
    rw [hc1]
    exact hb1
  · rw [hb2, hc2]
    simp [inorder, hv1]

theorem Balance_spec (t : Tree) :
    ∃ t', Balance t = some t' ∧ inorder t' = inorder t := by
  cases t with
  | leaf => exact ⟨.leaf, rfl, rfl⟩
  | node i l r => exact balance_spec i l r

/-! ## Balance never touches the root's left subtree -/

theorem Insert_cons (a : Interval) (ivs : List Interval) (t : Tree) :
    Insert (a :: ivs) t = Insert ivs (insert a t) := rfl

theorem insert_small {iv j : Interval} {l r : Tree} (hvi : valid iv)
    (hvj : valid j) (h : iv.end_ + 1 < j.start) :
    insert iv (.node j l r) = .node j (insert iv l) r := by
  unfold valid at hvi hvj
  have c1 : ¬ (j.Contains iv = true) := by
    rw [Interval.Contains_eq]; omega
  have c2 : iv.LessThan j = true := by
    rw [Interval.LessThan_eq]; omega
  have c3 : ¬ (iv.Adjacent j 1 = true) := by
    rw [Interval.Adjacent_eq]; omega
  simp only [insert, if_neg c1, if_pos c2, if_neg c3]

theorem insertList_small {j : Interval} (hvj : valid j) :
    ∀ (ivs : List Interval) (l r : Tree),
      (∀ iv ∈ ivs, valid iv ∧ iv.end_ + 1 < j.start) →
      Insert ivs (.node j l r) = .node j (Insert ivs l) r := by
  intro ivs
  induction ivs with
  | nil => intro l r _; rfl
  | cons a ivs ih =>
    intro l r hsmall
    have ha := hsmall a (by simp)
    rw [Insert_cons, Insert_cons, insert_small ha.1 hvj ha.2]
    exact ih _ _ (fun iv hiv => hsmall iv (by simp [hiv]))

theorem descSingles_mem : ∀ n : Nat, ∀ iv ∈ descSingles n,
    valid iv ∧ iv.end_ + 1 < 2 * ((n : ℤ) + 1) := by
  intro n
  induction n with
  | zero => simp [descSingles]
  | succ n ih =>
    intro iv hiv
    rw [show descSingles (n + 1) = ⟨2 * ((n : ℤ) + 1), 2 * ((n : ℤ) + 1)⟩ :: descSingles n
        from rfl, List.mem_cons] at hiv
    rcases hiv with h | h
    · subst h
      refine ⟨le_rfl, ?_⟩
      push_cast
      omega
    · obtain ⟨h1, h2⟩ := ih iv h
      refine ⟨h1, ?_⟩
      push_cast at h2 ⊢
      omega

theorem insertList_descSingles : ∀ n : Nat, Insert (descSingles n) .leaf = leftChain n := by
  intro n
  induction n with
  | zero => rfl
  | succ n ih =>
    rw [show descSingles (n + 1) = ⟨2 * ((n : ℤ) + 1), 2 * ((n : ℤ) + 1)⟩ :: descSingles n
        from rfl, Insert_cons]
    rw [show insert ⟨2 * ((n : ℤ) + 1), 2 * ((n : ℤ) + 1)⟩ Tree.leaf
        = Tree.node ⟨2 * ((n : ℤ) + 1), 2 * ((n : ℤ) + 1)⟩ .leaf .leaf from rfl]
    rw [insertList_small le_rfl (descSingles n) .leaf .leaf (descSingles_mem n), ih]
    rfl

theorem nearestPow2_one : nearestPow2 1 = 1 := by
  rw [nearestPow2, nearestPow2Aux, if_pos (by norm_num), nearestPow2Aux,
    if_neg (by norm_num)]
  norm_num

theorem balance_rightLeaf (i : Interval) (l : Tree) :
    balance (.node i l .leaf) = some (.node i l .leaf) := by
  have h1 : toVine Tree.leaf = (.leaf, 0) := by rw [toVine]
  have h2 : (0 + 1 : Nat) - nearestPow2 (0 + 1) = 0 := by norm_num [nearestPow2_one]
  have h4 : compress (Tree.node i l Tree.leaf) 0 = some (Tree.node i l Tree.leaf) := by
    simp [compress]
  simp only [balance, h1, h2, Nat.sub_zero, h4]
  show balanceLoop (Tree.node i l Tree.leaf) 0 = some (Tree.node i l Tree.leaf)
  rw [balanceLoop, if_neg (by omega)]

theorem Balance_leftChain (n : Nat) (h : 1 ≤ n) :
    Balance (leftChain n) = some (leftChain n) := by
  cases n with
  | zero => omega
  | succ m =>
    rw [show leftChain (m + 1)
        = Tree.node ⟨2 * ((m : ℤ) + 1), 2 * ((m : ℤ) + 1)⟩ (leftChain m) .leaf from rfl]
    exact balance_rightLeaf _ _

theorem height_leftChain : ∀ n : Nat, height (leftChain n) = n := by
  intro n
  induction n with
  | zero => rfl
  | succ n ih => simp [leftChain, height, ih]; omega

theorem length_inorder_leftChain : ∀ n : Nat, (inorder (leftChain n)).length = n := by
  intro n
  induction n with
  | zero => rfl
  | succ n ih => simp [leftChain, inorder, ih]

theorem two_pow_big (c : Nat) : 2 * c + 3 < 2 ^ (c + 2) := by
  induction c with
  | zero => norm_num
  | succ c ih =>
    rw [show c + 1 + 2 = (c + 2) + 1 from rfl, pow_succ]
    omega

theorem intersectionAll_card (a b : Tree) (ha : Inv a) (hb : Inv b) :
    intersectionAll a b = ((elems a ∩ elems b).card : ℤ) := by
  induction a with
  | leaf => simp [intersectionAll, elems]
  | node i l r ihl ihr =>
    obtain ⟨hInvL, hInvR, hvi, hbl, hbr⟩ := Inv_node ha
    simp only [intersectionAll]
    rw [intersection_card b hb i.start i.end_ hvi, ihl hInvL, ihr hInvR,
      Finset.inter_comm (elems (Tree.node i l r)) (elems b),
      card_inter_node (Q := elems b) ha,
      Finset.inter_comm (elems b) (elems l),
      Finset.inter_comm (elems b) (Finset.Icc i.start i.end_),
      Finset.inter_comm (elems b) (elems r)]
    push_cast
    ring

/-! ## The claims -/

/-- Claim C1: the spec asserts that after any sequence of valid Inserts the
in-order intervals are strictly increasing, pairwise disjoint and
non-adjacent-with-gap-1.  The code violates this: joinRight (and joinLeft)
absorb a neighbouring stored interval only when it is adjacent with gap
exactly 1, never when it overlaps the extended interval, so inserting [1,5],
[10,15], then the overlapping [3,12] leaves the overlapping stored intervals
[1,12] and [10,15], and Total double-counts their overlap (18 instead of the
15 represented integers). -/
theorem claim_C1_invariant_violated :
    Insert [⟨1, 5⟩, ⟨10, 15⟩, ⟨3, 12⟩] .leaf
      = .node ⟨1, 12⟩ .leaf (.node ⟨10, 15⟩ .leaf .leaf) ∧
    ¬ Inv (Insert [⟨1, 5⟩, ⟨10, 15⟩, ⟨3, 12⟩] .leaf) ∧
    Total (Insert [⟨1, 5⟩, ⟨10, 15⟩, ⟨3, 12⟩] .leaf) = 18 ∧
    ((elems (Insert [⟨1, 5⟩, ⟨10, 15⟩, ⟨3, 12⟩] .leaf)).card : ℤ) = 15 := by
  refine ⟨by decide, by decide, by decide, by decide⟩

/-- Claim C2: on a tree satisfying the maximal-disjoint invariant,
Intersection of a valid query interval returns exactly the number of integers
both stored and inside the query. -/
theorem claim_C2_intersection_correct (t : Tree) (h : Inv t) (i : Interval)
    (hi : i.start ≤ i.end_) :
    Intersection i t = ((Finset.Icc i.start i.end_ ∩ elems t).card : ℤ) :=
  intersection_card t h i.start i.end_ hi

/-- Witness for claim C2, on the set {[1,5],[10,15]} with query [3,12]. -/
theorem claim_C2_witness :
    Intersection ⟨3, 12⟩ exTree = ((Finset.Icc (3 : ℤ) 12 ∩ elems exTree).card : ℤ) ∧
    Intersection ⟨3, 12⟩ exTree = 6 :=
  ⟨claim_C2_intersection_correct exTree (by decide) ⟨3, 12⟩ (by decide), by decide⟩

/-- Claim C3: on a non-empty tree satisfying the invariant, Balance succeeds
and preserves Total and every valid Intersection query. -/
theorem claim_C3_balance_preserves (t : Tree) (h : Inv t) (hne : t ≠ .leaf) :
    ∃ t', Balance t = some t' ∧ Total t' = Total t ∧
      ∀ i : Interval, i.start ≤ i.end_ → Intersection i t' = Intersection i t := by
  obtain ⟨t', h1, h2⟩ := Balance_spec t
  refine ⟨t', h1, total_congr h2, ?_⟩
  intro i hi
  have hInv' : Inv t' := (Inv_congr h2).mpr h
  have he : elems t' = elems t := elems_congr h2
  show intersection i.start i.end_ t' = intersection i.start i.end_ t
  rw [intersection_card t' hInv' _ _ hi, intersection_card t h _ _ hi, he]

/-- Witness for claim C3, on the set {[1,5],[10,15]}. -/
theorem claim_C3_witness :
    ∃ t', Balance exTree = some t' ∧ Total t' = Total exTree ∧
      ∀ i : Interval, i.start ≤ i.end_ → Intersection i t' = Intersection i exTree :=
  claim_C3_balance_preserves exTree (by decide) (by decide)

/-- Claim C4: the spec asserts that Balance brings the height of any tree
reachable by Inserts down to ceil(log2(N+1)) plus a constant.  The code
violates this for every constant: the tree-to-vine pass starts at root.right
and never rotates the root's left subtree, so Balance returns a left-leaning
chain of n nodes unchanged, with height n. -/
theorem claim_C4_balance_height_unbounded (c : Nat) :
    ∃ (ivs : List Interval) (t' : Tree),
      (∀ iv ∈ ivs, valid iv) ∧
      Balance (Insert ivs .leaf) = some t' ∧
      Nat.clog 2 ((inorder t').length + 1) + c < height t' := by
  refine ⟨descSingles (2 ^ (c + 2)), leftChain (2 ^ (c + 2)), ?_, ?_, ?_⟩
  · exact fun iv hiv => (descSingles_mem _ iv hiv).1
  · rw [insertList_descSingles]
    exact Balance_leftChain _ Nat.one_le_two_pow
  · rw [length_inorder_leftChain, height_leftChain]
    have hlog : Nat.clog 2 (2 ^ (c + 2) + 1) ≤ c + 3 := by
      rw [← Nat.le_pow_iff_clog_le (by norm_num)]
      have h2 : (2 : ℕ) ^ (c + 3) = 2 ^ (c + 2) * 2 := pow_succ 2 (c + 2)
      have h1 : (1 : ℕ) ≤ 2 ^ (c + 2) := Nat.one_le_two_pow
      omega
    have := two_pow_big c
    omega

/-- Claim C5: Contains is true exactly when Intersection equals the query's
full length, i.e. exactly when every integer of the query is a member. -/
theorem claim_C5_contains_iff (t : Tree) (h : Inv t) (i : Interval)
    (hi : i.start ≤ i.end_) :
    (Contains i t = true ↔ Intersection i t = i.end_ - i.start + 1) ∧
    (Contains i t = true ↔ ∀ n ∈ Finset.Icc i.start i.end_, n ∈ elems t) := by
  have hdef : Contains i t = true ↔ Intersection i t = i.end_ - i.start + 1 :=
    beq_iff_eq
  refine ⟨hdef, hdef.trans ?_⟩
  have hI : Intersection i t = intersection i.start i.end_ t := rfl
  have hic := intersection_card t h i.start i.end_ hi
  have hcardS : (Finset.Icc i.start i.end_).card = (i.end_ - i.start + 1).toNat := by
    rw [Int.card_Icc]
    congr 1
    ring
  constructor
  · intro hc
    have hcc : ((Finset.Icc i.start i.end_ ∩ elems t).card : ℤ)
        = i.end_ - i.start + 1 := by
      rw [← hic, ← hI]
      exact hc
    have hle : (Finset.Icc i.start i.end_).card
        ≤ (Finset.Icc i.start i.end_ ∩ elems t).card := by
      omega
    have h1 := Finset.eq_of_subset_of_card_le Finset.inter_subset_left hle
    intro n hn
    have hn2 : n ∈ Finset.Icc i.start i.end_ ∩ elems t := by rw [h1]; exact hn
    exact (Finset.mem_inter.mp hn2).2
  · intro hall
    have h1 : Finset.Icc i.start i.end_ ∩ elems t = Finset.Icc i.start i.end_ := by
      rw [Finset.inter_eq_left]
      intro n hn
      exact hall n hn
    rw [hI, hic, h1, hcardS, Int.toNat_of_nonneg (by omega)]

/-- Witness for claim C5: on {[1,5],[10,15]}, Contains([1,5]) holds and
Contains([1,6]) fails. -/
theorem claim_C5_witness :
    ((Contains ⟨1, 5⟩ exTree = true ↔ Intersection ⟨1, 5⟩ exTree = 5 - 1 + 1) ∧
     (Contains ⟨1, 5⟩ exTree = true ↔ ∀ n ∈ Finset.Icc (1 : ℤ) 5, n ∈ elems exTree)) ∧
    Contains ⟨1, 5⟩ exTree = true ∧ Contains ⟨1, 6⟩ exTree = false :=
  ⟨claim_C5_contains_iff exTree (by decide) ⟨1, 5⟩ (by decide), by decide, by decide⟩

/-- Claim C6: inserting an interval whose integers are all already members
leaves Total and every Intersection query unchanged. -/
theorem claim_C6_insert_covered_noop (t : Tree) (h : Inv t) (iv : Interval)
    (hvi : iv.start ≤ iv.end_)
    (hcov : ∀ n ∈ Finset.Icc iv.start iv.end_, n ∈ elems t) :
    Total (insert iv t) = Total t ∧
      ∀ q : Interval, Intersection q (insert iv t) = Intersection q t := by
  have hJ := exists_cover h hvi (fun n h1 h2 => hcov n (Finset.mem_Icc.mpr ⟨h1, h2⟩))
  have heq : insert iv t = t := insert_covered hvi t h hJ
  rw [heq]
  exact ⟨rfl, fun q => rfl⟩

/-- Witness for claim C6: [2,4] is covered by {[1,5],[10,15]}. -/
theorem claim_C6_witness :
    Total (insert ⟨2, 4⟩ exTree) = Total exTree ∧
      ∀ q : Interval, Intersection q (insert ⟨2, 4⟩ exTree) = Intersection q exTree :=
  claim_C6_insert_covered_noop exTree (by decide) ⟨2, 4⟩ (by decide) (by decide)

/-- Claim C7: inserting [5,5], [6,6], [4,4] into an empty tree yields the
single node [4,6], and Total returns 3. -/
theorem claim_C7_merge_example :
    Insert [⟨5, 5⟩, ⟨6, 6⟩, ⟨4, 4⟩] .leaf = .node ⟨4, 6⟩ .leaf .leaf ∧
    Total (Insert [⟨5, 5⟩, ⟨6, 6⟩, ⟨4, 4⟩] .leaf) = 3 := by
  exact ⟨by decide, by decide⟩

/-- Claim C8: IntersectionAll is symmetric on trees satisfying the invariant. -/
theorem claim_C8_intersectionAll_comm (a b : Tree) (ha : Inv a) (hb : Inv b) :
    IntersectionAll a b = IntersectionAll b a := by
  show intersectionAll a b = intersectionAll b a
  rw [intersectionAll_card a b ha hb, intersectionAll_card b a hb ha,
    Finset.inter_comm]

/-- Witness for claim C8, on {[1,5],[10,15]} and {[4,11]}. -/
theorem claim_C8_witness :
    IntersectionAll exTree exOther = IntersectionAll exOther exTree :=
  claim_C8_intersectionAll_comm exTree exOther (by decide) (by decide)

/-- Claim C9: on the empty tree, Intersection of a valid interval is 0, Total
is 0, and Contains is false. -/
theorem claim_C9_empty_tree (i : Interval) (hi : i.start ≤ i.end_) :
    Intersection i .leaf = 0 ∧ Total .leaf = 0 ∧ Contains i .leaf = false := by
  refine ⟨rfl, rfl, ?_⟩
  show (intersection i.start i.end_ .leaf == i.end_ - i.start + 1) = false
  rw [show intersection i.start i.end_ Tree.leaf = 0 from rfl]
  rw [beq_eq_false_iff_ne]
  omega

/-- Witness for claim C9, with the valid interval [3,7]. -/
theorem claim_C9_witness :
    Intersection ⟨3, 7⟩ .leaf = 0 ∧ Total .leaf = 0 ∧
      Contains ⟨3, 7⟩ .leaf = false :=
  claim_C9_empty_tree ⟨3, 7⟩ (by decide)

/-- Claim C10: Balance terminates on every finite tree and never dereferences
an absent child pointer (it never returns the `none` that models a nil
dereference), and Balance on the empty tree is a guarded no-op.  Termination
of the tree-to-vine loop and of the compression passes is established by the
definitions `toVine`, `balanceLoop` and `nearestPow2Aux` themselves, whose
recursion Lean checks to be well founded. -/
theorem claim_C10_balance_total :
    (∀ t : Tree, ∃ t', Balance t = some t') ∧ Balance .leaf = some .leaf := by
  refine ⟨fun t => ?_, rfl⟩
  obtain ⟨t', h1, _⟩ := Balance_spec t
  exact ⟨t', h1⟩

end Gallifrey
